import Mathlib

/-!
Shallow embedding of the document query engine of `src/index.js`
(class `PDFReaderServer`): text normalization (`cleanText`), page-range
resolution (`parsePageRange`), the context-window search loop of
`handleSearchPdf`, the metadata projection of `handlePdfMetadata`, and the
dispatcher (`CallToolRequestSchema` handler) with its catch-all error
envelope.  JavaScript strings are modeled as Lean `String`/`List Char`;
JavaScript `undefined` for optional fields is modeled as `Option`;
exceptions are modeled as `Except JsError`; the external composite
`path.resolve` + `fs.readFile` + `pdfParse` of `loadPdf` is modeled as an
abstract loader function, and each call to it is recorded in an effect
trace so that claims about file I/O ordering can be stated.  The external
JavaScript regex engine (used only by the whole-word branch) is modeled as
an abstract function receiving the pattern source, the flag string and the
tested input.
-/

/-- The set of JavaScript regex `\s` characters (also the set stripped by
`String.prototype.trim`): space, tab, LF, VT, FF, CR, NBSP and the Unicode
space separators. -/
def isJsWs (c : Char) : Bool :=
  c = ' ' || c = '\t' || c = '\n' || c = '\x0b' || c = '\x0c' || c = '\r' ||
  c = '\u00A0' || c = '\u1680' || ('\u2000' ≤ c && c ≤ '\u200A') ||
  c = '\u2028' || c = '\u2029' || c = '\u202F' || c = '\u205F' ||
  c = '\u3000' || c = '\uFEFF'

/-- Model of `text.replace(/\s+/g, " ")` of `cleanText` (src/index.js line 163):
each maximal run of whitespace becomes a single space.  The flag records
whether the previous character was part of a whitespace run. -/
def collapseWsAux (prevWs : Bool) : List Char → List Char
  | [] => []
  | c :: cs =>
    if isJsWs c then
      if prevWs then collapseWsAux true cs else ' ' :: collapseWsAux true cs
    else c :: collapseWsAux false cs

def collapseWs (l : List Char) : List Char := collapseWsAux false l

/-- Emit a buffered run of `k` newlines, reduced to two when `k ≥ 3`:
the replacement of `text.replace(/\n{3,}/g, "\n\n")` (src/index.js line 164). -/
def flushNl (k : Nat) : List Char :=
  if k ≥ 3 then ['\n', '\n'] else List.replicate k '\n'

def collapseNlAux (k : Nat) : List Char → List Char
  | [] => flushNl k
  | c :: cs =>
    if c = '\n' then collapseNlAux (k + 1) cs
    else flushNl k ++ c :: collapseNlAux 0 cs

def collapseNl (l : List Char) : List Char := collapseNlAux 0 l

/-- Remove the trailing whitespace run (the right half of `.trim()`). -/
def trimRight : List Char → List Char
  | [] => []
  | c :: cs =>
    match trimRight cs with
    | [] => if isJsWs c then [] else [c]
    | r => c :: r

/-- JavaScript `String.prototype.trim`: strip whitespace from both ends. -/
def jsTrim (l : List Char) : List Char := trimRight (l.dropWhile isJsWs)

/-- Model of `cleanText` (src/index.js lines 161-166) on character lists:
whitespace collapse, then newline collapse, then trim. -/
def cleanTextL (l : List Char) : List Char := jsTrim (collapseNl (collapseWs l))

/-- Model of `cleanText(text)` (src/index.js lines 161-166). -/
def cleanText (s : String) : String := ⟨cleanTextL s.data⟩

/-- Per-character model of JavaScript `String.prototype.toLowerCase`. -/
def jsToLower (s : String) : String := ⟨s.data.map Char.toLower⟩

/-- Whether `needle` occurs at the start of `l`. -/
def leadsWith : List Char → List Char → Bool
  | _, [] => true
  | [], _ :: _ => false
  | a :: as, b :: bs => a = b && leadsWith as bs

/-- Whether `needle` occurs contiguously anywhere in `haystack`: the model
of JavaScript `String.prototype.includes`. -/
def containsSeq : List Char → List Char → Bool
  | [], needle => leadsWith [] needle
  | c :: t, needle => leadsWith (c :: t) needle || containsSeq t needle

def containsStr (s sub : String) : Bool := containsSeq s.data sub.data

/-- JavaScript `String.prototype.split` with a one-character separator:
always returns at least one (possibly empty) piece. -/
def splitOnChar (sep : Char) : List Char → List (List Char)
  | [] => [[]]
  | c :: r =>
    if c = sep then [] :: splitOnChar sep r
    else
      match splitOnChar sep r with
      | [] => [[c]]
      | line :: rest => (c :: line) :: rest

def jsSplit (sep : Char) (s : String) : List String :=
  (splitOnChar sep s.data).map (fun l => ⟨l⟩)

def isDecDigit (c : Char) : Bool := '0' ≤ c && c ≤ '9'

def isHexDigit (c : Char) : Bool :=
  isDecDigit c || ('a' ≤ c && c ≤ 'f') || ('A' ≤ c && c ≤ 'F')

def decVal (c : Char) : Nat := c.toNat - '0'.toNat

def hexVal (c : Char) : Nat :=
  if isDecDigit c then c.toNat - '0'.toNat
  else if 'a' ≤ c && c ≤ 'f' then c.toNat - 'a'.toNat + 10
  else c.toNat - 'A'.toNat + 10

/-- Read the leading digits of `l` in the given base; `none` when there is
no leading digit (the `NaN` outcome of `parseInt`). -/
def parseRadix (base : Nat) (isD : Char → Bool) (val : Char → Nat) (l : List Char) : Option Nat :=
  match l.takeWhile isD with
  | [] => none
  | ds => some (ds.foldl (fun a c => a * base + val c) 0)

def jsParseIntMag : List Char → Option Nat
  | '0' :: 'x' :: r => parseRadix 16 isHexDigit hexVal r
  | '0' :: 'X' :: r => parseRadix 16 isHexDigit hexVal r
  | l => parseRadix 10 isDecDigit decVal l

/-- JavaScript `parseInt(s)` (radix unspecified) on an already trimmed
string: optional sign, optional `0x`/`0X` hex marker, leading digits,
trailing garbage ignored; `none` models `NaN`. -/
def jsParseInt (l : List Char) : Option Int :=
  match l with
  | '-' :: r => (jsParseIntMag r).map (fun n : Nat => -(n : Int))
  | '+' :: r => (jsParseIntMag r).map (fun n : Nat => (n : Int))
  | r => (jsParseIntMag r).map (fun n : Nat => (n : Int))

/-- The integers from `s` to `m` inclusive, empty when `s > m`: the pages
added by the loop `for (let i = start; i <= end && i <= totalPages; i++)`. -/
def intRangeTo (s m : Int) : List Int :=
  (List.range (m + 1 - s).toNat).map (fun k : Nat => s + (k : Int))

/-- The pages contributed by one comma-separated token of `parsePageRange`
(src/index.js lines 176-188). -/
def tokenPages (part : List Char) (totalPages : Nat) : List Int :=
  if '-' ∈ part then
    match ((((splitOnChar '-' part).map (fun x => jsParseInt (jsTrim x))).get? 0).getD none),
          ((((splitOnChar '-' part).map (fun x => jsParseInt (jsTrim x))).get? 1).getD none) with
    | some s, some e => intRangeTo s (min e (totalPages : Int))
    | _, _ => []
  else
    match jsParseInt (jsTrim part) with
    | some p => if p ≤ (totalPages : Int) then [p] else []
    | none => []

/-- Model of `pages.add(p)` on the JavaScript `Set` kept as an insertion-ordered
duplicate-free list. -/
def addPage (l : List Int) (p : Int) : List Int := if p ∈ l then l else l ++ [p]

/-- Insert into an ascending list: one step of the final numeric
`.sort((a, b) => a - b)`. -/
def insertLe (p : Int) : List Int → List Int
  | [] => [p]
  | q :: t => if p ≤ q then p :: q :: t else q :: insertLe p t

def sortInts (l : List Int) : List Int := l.foldr insertLe []

/-- Model of `parsePageRange(pageRange, totalPages)` (src/index.js lines 168-191). -/
def parsePageRange (pageRange : String) (totalPages : Nat) : List Int :=
  if pageRange = "all" then
    (List.range totalPages).map (fun i : Nat => (i : Int) + 1)
  else
    let parts := splitOnChar ',' pageRange.data
    let pages := parts.foldl (fun acc part => (tokenPages part totalPages).foldl addPage acc) []
    sortInts pages

/-- A JavaScript exception carrying its `message`. -/
structure JsError where
  message : String
deriving DecidableEq

/-- The `TypeError` thrown by `query.toLowerCase()` when `query` is absent. -/
def typeErrorToLowerCase : JsError :=
  ⟨"Cannot read properties of undefined (reading 'toLowerCase')"⟩

/-- The raw info dictionary of the external parser (`pdf.info`); the keys
read by src/index.js, each possibly absent. -/
structure InfoMap where
  Title : Option String := none
  Author : Option String := none
  Subject : Option String := none
  Keywords : Option String := none
  Creator : Option String := none
  Producer : Option String := none
  CreationDate : Option String := none
  ModDate : Option String := none
deriving DecidableEq

/-- The Document Handle produced by the external `pdfParse`. -/
structure Pdf where
  text : String
  numpages : Nat
  info : Option InfoMap := none
  meta : Option String := none
  version : Option String := none
deriving DecidableEq

/-- The dynamic argument bag of one tool call (`request.params.arguments`):
every field any of the three operations reads, each possibly absent. -/
structure ArgsBag where
  file : Option String := none
  pages : Option String := none
  clean_text : Option Bool := none
  include_metadata : Option Bool := none
  query : Option String := none
  case_sensitive : Option Bool := none
  whole_word : Option Bool := none
deriving DecidableEq

structure ContentItem where
  type : String
  text : String
deriving DecidableEq

/-- The result envelope `{ content: [...], isError?: boolean }`; a success
result carries no `isError` field, modeled as `none`. -/
structure ToolResult where
  content : List ContentItem
  isError : Option Bool := none
deriving DecidableEq

/-- One observable effect of a request: a call to `loadPdf` with the given
`file` argument (`path.resolve` + `fs.readFile` + `pdfParse`). -/
inductive Eff where
  | load (file : Option String)
deriving DecidableEq

/-- The external loader: everything behind `loadPdf` (file system and
binary parser).  A `file` of `none` models calling it with `undefined`. -/
def Loader : Type := Option String → Except JsError Pdf

/-- The external JavaScript regex engine: takes the pattern source, the
flag string and the tested input of `new RegExp(src, flags).test(input)`. -/
def RegexTest : Type := String → String → String → Bool

/-- JavaScript string coercion of a possibly-undefined string value, as in
template literals and `includes`: `undefined` becomes "undefined". -/
def jsCoerce : Option String → String
  | none => "undefined"
  | some s => s

structure SearchMatch where
  line : Nat
  context : String
deriving DecidableEq

/-- The match decision for one line (src/index.js lines 246-255): the
whole-word branch builds `new RegExp("\\b" + searchQuery + "\\b",
case_sensitive ? "" : "i")` and tests it against the raw line; the
substring branch lower-cases the line unless case-sensitive and uses
`includes`. -/
def lineMatches (rtest : RegexTest) (searchQuery : Option String) (cs ww : Bool) (line : String) : Bool :=
  let searchLine := if cs then line else jsToLower line
  if ww then rtest ("\\b" ++ jsCoerce searchQuery ++ "\\b") (if cs then "" else "i") line
  else containsStr searchLine (jsCoerce searchQuery)

/-- The search loop of `handleSearchPdf` (src/index.js lines 241-267):
split on newlines, test each line, and on a match record the 1-based line
number and the excerpt of lines `[max(0, i-2), min(lineCount, i+3))`
joined with newlines (`contextLines = 2`).  `i - 2` on `Nat` is
`Math.max(0, i - 2)`. -/
def searchMatches (rtest : RegexTest) (searchQuery : Option String) (cs ww : Bool) (text : String) : List SearchMatch :=
  let lines := jsSplit '\n' text
  (List.range lines.length).filterMap fun i =>
    if lineMatches rtest searchQuery cs ww (lines.getD i "") then
      some { line := i + 1,
             context := String.intercalate "\n" ((lines.take (min lines.length (i + 3))).drop (i - 2)) }
    else none

/-- Lines 236-239 of src/index.js: `let searchQuery = query; if
(!case_sensitive) { searchQuery = query.toLowerCase(); }`.  When `query`
is absent and the branch is taken, this throws the `TypeError`. -/
def searchQueryOf (query : Option String) (cs : Bool) : Except JsError (Option String) :=
  if cs then Except.ok query
  else
    match query with
    | none => Except.error typeErrorToLowerCase
    | some q => Except.ok (some (jsToLower q))

/-- Model of `x || "N/A"`: the metadata fallback; both absent values and the empty
string (falsy in JavaScript) become the sentinel. -/
def naOr : Option String → String
  | none => "N/A"
  | some s => if s = "" then "N/A" else s

/-- The field values interpolated by `handlePdfMetadata`
(src/index.js lines 296-319): `metadata.info` is `pdf.info || {}`. -/
structure MetadataFields where
  pages : Nat
  version : String
  title : String
  author : String
  subject : String
  keywords : String
  creator : String
  producer : String
  creationDate : String
  modDate : String
deriving DecidableEq

def projectMetadata (pdf : Pdf) : MetadataFields :=
  let info := pdf.info.getD {}
  { pages := pdf.numpages,
    version := naOr pdf.version,
    title := naOr info.Title,
    author := naOr info.Author,
    subject := naOr info.Subject,
    keywords := naOr info.Keywords,
    creator := naOr info.Creator,
    producer := naOr info.Producer,
    creationDate := naOr info.CreationDate,
    modDate := naOr info.ModDate }

/-- The optional-chained fallbacks `pdf.info?.X || "N/A"` of the metadata
block appended by `handleReadPdf` (src/index.js lines 208-215). -/
def readMetadataBlock (pdf : Pdf) : String :=
  String.intercalate "\n"
    ["\n\n--- PDF Metadata ---",
     "Pages: " ++ toString pdf.numpages,
     "Title: " ++ naOr (pdf.info.bind (fun i => i.Title)),
     "Author: " ++ naOr (pdf.info.bind (fun i => i.Author)),
     "Creator: " ++ naOr (pdf.info.bind (fun i => i.Creator)),
     "Producer: " ++ naOr (pdf.info.bind (fun i => i.Producer))]

/-- Model of `handleReadPdf(args)` (src/index.js lines 193-228).  The `pages`
argument is destructured nowhere in the source body and is never read. -/
def handleReadPdf (loader : Loader) (args : ArgsBag) : Except JsError ToolResult × List Eff :=
  let clean_text := args.clean_text.getD false
  let include_metadata := args.include_metadata.getD true
  match loader args.file with
  | Except.error e => (Except.error e, [Eff.load args.file])
  | Except.ok pdf =>
    let text := if clean_text then cleanText pdf.text else pdf.text
    let result := "PDF Text Content:\n\n" ++ text
    let result := if include_metadata then result ++ readMetadataBlock pdf else result
    (Except.ok { content := [⟨"text", result⟩] }, [Eff.load args.file])

/-- The report string built from the matches (src/index.js lines 269-279). -/
def searchReport (query file : Option String) (ms : List SearchMatch) : String :=
  let header := "Found " ++ toString ms.length ++ " match(es) for \"" ++
    jsCoerce query ++ "\" in " ++ jsCoerce file ++ "\n\n"
  let body :=
    if ms.length > 0 then
      String.intercalate "\n---\n\n"
        (ms.enum.map (fun p =>
          "Match " ++ toString (p.1 + 1) ++ " (around line " ++ toString p.2.line ++ "):\n" ++
          p.2.context ++ "\n"))
    else "No matches found."
  header ++ body

/-- Model of `handleSearchPdf(args)` (src/index.js lines 230-289): the document is
loaded FIRST; only afterwards is `query` touched (throwing a `TypeError`
when it is absent and `case_sensitive` is falsy). -/
def handleSearchPdf (rtest : RegexTest) (loader : Loader) (args : ArgsBag) : Except JsError ToolResult × List Eff :=
  let cs := args.case_sensitive.getD false
  let ww := args.whole_word.getD false
  match loader args.file with
  | Except.error e => (Except.error e, [Eff.load args.file])
  | Except.ok pdf =>
    match searchQueryOf args.query cs with
    | Except.error e => (Except.error e, [Eff.load args.file])
    | Except.ok searchQuery =>
      let ms := searchMatches rtest searchQuery cs ww pdf.text
      (Except.ok { content := [⟨"text", searchReport args.query args.file ms⟩] },
       [Eff.load args.file])

/-- Model of `handlePdfMetadata(args)` (src/index.js lines 291-329). -/
def handlePdfMetadata (loader : Loader) (args : ArgsBag) : Except JsError ToolResult × List Eff :=
  match loader args.file with
  | Except.error e => (Except.error e, [Eff.load args.file])
  | Except.ok pdf =>
    let m := projectMetadata pdf
    let result := String.intercalate "\n"
      ["PDF Metadata for: " ++ jsCoerce args.file,
       "",
       "Pages: " ++ toString m.pages,
       "Version: " ++ m.version,
       "",
       "Document Information:",
       "  Title: " ++ m.title,
       "  Author: " ++ m.author,
       "  Subject: " ++ m.subject,
       "  Keywords: " ++ m.keywords,
       "  Creator: " ++ m.creator,
       "  Producer: " ++ m.producer,
       "  Creation Date: " ++ m.creationDate,
       "  Modification Date: " ++ m.modDate]
    (Except.ok { content := [⟨"text", result⟩] }, [Eff.load args.file])

/-- The `switch` of the `CallToolRequestSchema` handler
(src/index.js lines 131-140), before the surrounding `try`/`catch`. -/
def runTool (rtest : RegexTest) (loader : Loader) (name : String) (args : ArgsBag) : Except JsError ToolResult × List Eff :=
  match name with
  | "read-pdf" => handleReadPdf loader args
  | "search-pdf" => handleSearchPdf rtest loader args
  | "pdf-metadata" => handlePdfMetadata loader args
  | _ => (Except.error ⟨"Unknown tool: " ++ name⟩, [])

/-- The `catch` of the dispatcher (src/index.js lines 141-151): any error
becomes a result envelope with `isError: true` and text
`Error: <message>`. -/
def mkErrorEnvelope (msg : String) : ToolResult :=
  { content := [⟨"text", "Error: " ++ msg⟩], isError := some true }

/-- The full dispatcher boundary (src/index.js lines 127-152). -/
def handleCallTool (rtest : RegexTest) (loader : Loader) (name : String) (args : ArgsBag) : ToolResult × List Eff :=
  match runTool rtest loader name args with
  | (Except.ok r, log) => (r, log)
  | (Except.error e, log) => (mkErrorEnvelope e.message, log)

/-- A regex engine that matches nothing: a concrete instantiation of the
abstract external engine, for closed test inputs. -/
def rtZero : RegexTest := fun _ _ _ => false

/-- An instrumented loader whose failure message records that it ran. -/
def errLoader : Loader := fun _ => Except.error ⟨"LOADER WAS INVOKED"⟩

/-- A loader that always succeeds with a small fixed document. -/
def okLoader : Loader := fun _ =>
  Except.ok { text := "Hello World\nThe quick brown fox\nHello again", numpages := 1 }

/-- A `search-pdf` argument bag carrying only the required `file`,
with the required `query` missing. -/
def bagFileOnly : ArgsBag := { file := some "doc.pdf" }

/-- A parsed document whose info dictionary lacks the `Author` key. -/
def pdfNoAuthor : Pdf :=
  { text := "Hello", numpages := 1,
    info := some { Title := some "A title" }, version := none }

/-! Helper lemmas shared across the verification. -/

theorem splitOnChar_ne_nil (sep : Char) (l : List Char) : splitOnChar sep l ≠ [] := by
  induction l with
  | nil => simp [splitOnChar]
  | cons c r ih =>
    simp only [splitOnChar]
    by_cases h : c = sep
    · simp [h]
    · simp only [h, if_false]
      cases hs : splitOnChar sep r with
      | nil => simp
      | cons a t => simp

theorem not_mem_of_mem_splitOnChar (sep : Char) (l piece : List Char)
    (h : piece ∈ splitOnChar sep l) : sep ∉ piece := by
  induction l generalizing piece with
  | nil =>
    simp [splitOnChar] at h
    simp [h]
  | cons c r ih =>
    simp only [splitOnChar] at h
    by_cases hc : c = sep
    · simp only [hc, if_true, List.mem_cons] at h
      rcases h with h | h
      · simp [h]
      · exact ih piece h
    · simp only [hc, if_false] at h
      cases hs : splitOnChar sep r with
      | nil => exact absurd hs (splitOnChar_ne_nil sep r)
      | cons a t =>
        rw [hs] at h
        rcases List.mem_cons.mp h with h | h
        · subst h
          intro hm
          rcases List.mem_cons.mp hm with h | h
          · exact hc h.symm
          · exact ih a (by rw [hs]; exact List.mem_cons_self a t) h
        · exact ih piece (by rw [hs]; exact List.mem_cons.mpr (Or.inr h))

/-! ## C3 -/

/-- C3: the output of a read-pdf request is independent of the `pages`
argument: with every other argument fixed, two calls differing only in
`pages` produce identical results (and identical effect traces). -/
theorem c3_read_ignores_pages (rtest : RegexTest) (loader : Loader) (args : ArgsBag)
    (p1 p2 : Option String) :
    handleReadPdf loader { args with pages := p1 } = handleReadPdf loader { args with pages := p2 } ∧
    handleCallTool rtest loader "read-pdf" { args with pages := p1 } =
      handleCallTool rtest loader "read-pdf" { args with pages := p2 } := by
  constructor <;> rfl

/-! ## C4 -/

/-- C4: every error raised during handling is caught at the dispatcher
boundary and converted into a result envelope with `isError: true` and the
message formed as `Error: ` followed by the message text; otherwise the handler result passes through
unchanged.  No exception escapes `handleCallTool`, which is total. -/
theorem c4_errors_contained (rtest : RegexTest) (loader : Loader) (name : String) (args : ArgsBag) :
    (∃ r log, runTool rtest loader name args = (Except.ok r, log) ∧
      handleCallTool rtest loader name args = (r, log)) ∨
    (∃ e log, runTool rtest loader name args = (Except.error e, log) ∧
      handleCallTool rtest loader name args = (mkErrorEnvelope e.message, log) ∧
      (mkErrorEnvelope e.message).isError = some true ∧
      (mkErrorEnvelope e.message).content = [⟨"text", "Error: " ++ e.message⟩]) := by
  rcases h : runTool rtest loader name args with ⟨res, log⟩
  cases res with
  | ok r => exact Or.inl ⟨r, log, rfl, by simp [handleCallTool, h]⟩
  | error e => exact Or.inr ⟨e, log, rfl, by simp [handleCallTool, h], rfl, rfl⟩

/-! ## C1 -/

/-- C1 counterexample: calling `search-pdf` with `query` missing does NOT
return a ValidationError without file I/O.  With an instrumented loader
the load IS performed (the effect trace contains the load and the result
is the loader failure, not a validation failure); with a succeeding loader
the eventual failure is the `TypeError` from `query.toLowerCase()`, whose
message does not identify the `query` field. -/
theorem c1_counterexample :
    handleCallTool rtZero errLoader "search-pdf" bagFileOnly =
      (mkErrorEnvelope "LOADER WAS INVOKED", [Eff.load (some "doc.pdf")]) ∧
    handleCallTool rtZero okLoader "search-pdf" bagFileOnly =
      (mkErrorEnvelope "Cannot read properties of undefined (reading 'toLowerCase')",
       [Eff.load (some "doc.pdf")]) := by
  constructor <;> rfl

/-- C1 (amended): a `search-pdf` call with `query` missing and
`case_sensitive` left to its default always invokes the document loader
(exactly one load occurs, before the failure) and always ends in an
`isError: true` envelope: the loader error when loading fails, otherwise
the `TypeError` thrown by `query.toLowerCase()`. -/
theorem c1_missing_query (rtest : RegexTest) (loader : Loader) (args : ArgsBag)
    (hq : args.query = none) (hcs : args.case_sensitive = none) :
    (handleCallTool rtest loader "search-pdf" args).2 = [Eff.load args.file] ∧
    (handleCallTool rtest loader "search-pdf" args).1.isError = some true := by
  cases hload : loader args.file with
  | error e =>
    simp [handleCallTool, runTool, handleSearchPdf, hload, mkErrorEnvelope]
  | ok pdf =>
    simp [handleCallTool, runTool, handleSearchPdf, hload, hq, hcs,
      searchQueryOf, mkErrorEnvelope]

theorem c1_missing_query_witness :
    (handleCallTool rtZero okLoader "search-pdf" bagFileOnly).2 = [Eff.load (some "doc.pdf")] ∧
    (handleCallTool rtZero okLoader "search-pdf" bagFileOnly).1.isError = some true :=
  c1_missing_query rtZero okLoader bagFileOnly rfl rfl

/-! ## C5 -/

/-- C5 counterexample: with `caseSensitive = false` the whole-word pattern
is NOT built from the query verbatim: for query `"A"` the `searchQuery`
handed to pattern construction is the lowercased `"a"`, the engine
receives source `\\ba\\b` (never the verbatim `\\bA\\b`), as a
regex engine instrumented to recognize each source shows. -/
theorem c5_counterexample :
    searchQueryOf (some "A") false = Except.ok (some "a") ∧
    ("\\ba\\b" : String) ≠ "\\bA\\b" ∧
    lineMatches (fun src _ _ => src == "\\bA\\b") (some "a") false true "The A word" = false ∧
    lineMatches (fun src _ _ => src == "\\ba\\b") (some "a") false true "The A word" = true := by
  refine ⟨rfl, by decide, by decide, by decide⟩

/-- C5 (amended): the whole-word branch compiles `\\b<q>\\b` where
`<q>` is the query verbatim only when `caseSensitive` is true and the
lowercased query otherwise; it hands the engine the `i` flag exactly when
`caseSensitive` is false, and tests the raw (non-lowercased) line. -/
theorem c5_whole_word_pattern (rtest : RegexTest) (query line : String) (cs : Bool) :
    searchQueryOf (some query) cs = Except.ok (some (if cs then query else jsToLower query)) ∧
    lineMatches rtest (some (if cs then query else jsToLower query)) cs true line =
      rtest ("\\b" ++ (if cs then query else jsToLower query) ++ "\\b")
        (if cs then "" else "i") line := by
  cases cs <;> exact ⟨rfl, rfl⟩

/-! ## C9 -/

/-- C9: the metadata projection maps all eight known info keys to output
fields through the `|| "N/A"` fallback; the fallback never yields the
empty string, and yields the sentinel for an absent or empty value;
`pages` is always populated from the handle and `version` goes through the
same fallback (so an absent version becomes the sentinel). -/
theorem c9_metadata_sentinel (pdf : Pdf) :
    (projectMetadata pdf).pages = pdf.numpages ∧
    (projectMetadata pdf).title = naOr ((pdf.info.getD {}).Title) ∧
    (projectMetadata pdf).author = naOr ((pdf.info.getD {}).Author) ∧
    (projectMetadata pdf).subject = naOr ((pdf.info.getD {}).Subject) ∧
    (projectMetadata pdf).keywords = naOr ((pdf.info.getD {}).Keywords) ∧
    (projectMetadata pdf).creator = naOr ((pdf.info.getD {}).Creator) ∧
    (projectMetadata pdf).producer = naOr ((pdf.info.getD {}).Producer) ∧
    (projectMetadata pdf).creationDate = naOr ((pdf.info.getD {}).CreationDate) ∧
    (projectMetadata pdf).modDate = naOr ((pdf.info.getD {}).ModDate) ∧
    (projectMetadata pdf).version = naOr pdf.version ∧
    (∀ x : Option String, naOr x ≠ "" ∧ ((x = none ∨ x = some "") → naOr x = "N/A")) := by
  refine ⟨rfl, rfl, rfl, rfl, rfl, rfl, rfl, rfl, rfl, rfl, ?_⟩
  intro x
  constructor
  · cases x with
    | none => decide
    | some s =>
      simp only [naOr]
      by_cases h : s = "" <;> simp [h]
  · rintro (h | h) <;> simp [h, naOr]

theorem c9_metadata_sentinel_witness :
    (projectMetadata pdfNoAuthor).author = "N/A" ∧
    (projectMetadata pdfNoAuthor).pages = 1 ∧
    (projectMetadata pdfNoAuthor).version = "N/A" := by
  have h := c9_metadata_sentinel pdfNoAuthor
  refine ⟨h.2.2.1.trans (by decide), h.1.trans (by decide), ?_⟩
  exact h.2.2.2.2.2.2.2.2.2.1.trans (by decide)

/-! ## C8 -/

/-- C8: on the text with lines `foo`, `bar`, `foo` and query `foo`,
case-insensitive substring search yields exactly the two matches at
1-based lines 1 and 3, each whose excerpt is the window
`[max(0, i-2), min(lineCount, i+3))` joined with newlines — here all
three lines — and the match sequence is strictly increasing in line
order. -/
theorem c8_search_completeness (rtest : RegexTest) :
    searchQueryOf (some "foo") false = Except.ok (some "foo") ∧
    searchMatches rtest (some "foo") false false "foo\nbar\nfoo" =
      [⟨1, "foo\nbar\nfoo"⟩, ⟨3, "foo\nbar\nfoo"⟩] ∧
    List.Pairwise (fun a b => a.line < b.line)
      (searchMatches rtest (some "foo") false false "foo\nbar\nfoo") := by
  refine ⟨rfl, rfl, ?_⟩
  have h : searchMatches rtest (some "foo") false false "foo\nbar\nfoo" =
      [⟨1, "foo\nbar\nfoo"⟩, ⟨3, "foo\nbar\nfoo"⟩] := rfl
  rw [h]
  exact List.pairwise_cons.mpr ⟨by intro b hb; simp at hb; simp [hb], by simp⟩

/-! ## C10 -/

theorem containsSeq_nil_needle (l : List Char) : containsSeq l [] = true := by
  cases l <;> simp [containsSeq, leadsWith]

theorem lineMatches_empty_query (rtest : RegexTest) (cs : Bool) (line : String) :
    lineMatches rtest (some "") cs false line = true := by
  simp [lineMatches, containsStr, jsCoerce, containsSeq_nil_needle]

theorem filterMap_if_true {α β : Type} (g : α → β) (c : α → Bool) (l : List α)
    (h : ∀ a ∈ l, c a = true) :
    l.filterMap (fun a => if c a then some (g a) else none) = l.map g := by
  induction l with
  | nil => rfl
  | cons x t ih =>
    have hx : c x = true := h x (List.mem_cons_self x t)
    simp only [List.filterMap_cons, List.map_cons, hx, if_true]
    rw [ih (fun a ha => h a (List.mem_cons.mpr (Or.inr ha)))]

theorem jsSplit_length_pos (sep : Char) (s : String) : 1 ≤ (jsSplit sep s).length := by
  have h := splitOnChar_ne_nil sep s.data
  simp only [jsSplit, List.length_map]
  cases hs : splitOnChar sep s.data with
  | nil => exact absurd hs h
  | cons a t => simp

/-- C10: under the substring policy, the empty-string query matches every
line of any text: the matches are exactly one per line of the newline
split (so their count is the number of lines, which is at least 1 for
every text, including the empty text), each with its usual context
excerpt. -/
theorem c10_empty_query_matches_all_lines (rtest : RegexTest) (cs : Bool) (text : String) :
    searchQueryOf (some "") cs = Except.ok (some "") ∧
    searchMatches rtest (some "") cs false text =
      (List.range (jsSplit '\n' text).length).map (fun i =>
        { line := i + 1,
          context := String.intercalate "\n"
            (((jsSplit '\n' text).take (min (jsSplit '\n' text).length (i + 3))).drop (i - 2)) }) ∧
    (searchMatches rtest (some "") cs false text).length = (jsSplit '\n' text).length ∧
    1 ≤ (jsSplit '\n' text).length := by
  have hq : searchQueryOf (some "") cs = Except.ok (some "") := by
    cases cs <;> rfl
  have hmap : searchMatches rtest (some "") cs false text =
      (List.range (jsSplit '\n' text).length).map (fun i =>
        { line := i + 1,
          context := String.intercalate "\n"
            (((jsSplit '\n' text).take (min (jsSplit '\n' text).length (i + 3))).drop (i - 2)) }) := by
    unfold searchMatches
    exact filterMap_if_true _ _ _ (fun i _ => lineMatches_empty_query rtest cs _)
  refine ⟨hq, hmap, ?_, jsSplit_length_pos '\n' text⟩
  rw [hmap]
  simp

/-! ## C2 and C6: page-range lemmas -/

theorem mem_of_mem_dropWhile {p : Char → Bool} {c : Char} {l : List Char}
    (h : c ∈ l.dropWhile p) : c ∈ l := by
  induction l with
  | nil => simpa using h
  | cons a t ih =>
    by_cases ha : p a
    · rw [List.dropWhile_cons, if_pos ha] at h
      exact List.mem_cons.mpr (Or.inr (ih h))
    · rw [List.dropWhile_cons, if_neg ha] at h
      exact h

theorem trimRight_cons_of_nil {a : Char} {t : List Char} (ht : trimRight t = []) :
    trimRight (a :: t) = if isJsWs a then [] else [a] := by
  show (match trimRight t with
    | [] => if isJsWs a then [] else [a]
    | r => a :: r) = _
  rw [ht]

theorem trimRight_cons_of_ne {a : Char} {t : List Char} (ht : trimRight t ≠ []) :
    trimRight (a :: t) = a :: trimRight t := by
  show (match trimRight t with
    | [] => if isJsWs a then [] else [a]
    | r => a :: r) = _
  cases hr : trimRight t with
  | nil => exact absurd hr ht
  | cons x y => rfl

theorem mem_of_mem_trimRight {c : Char} {l : List Char} (h : c ∈ trimRight l) : c ∈ l := by
  induction l with
  | nil => simpa [trimRight] using h
  | cons a t ih =>
    by_cases ht : trimRight t = []
    · rw [trimRight_cons_of_nil ht] at h
      by_cases ha : isJsWs a
      · rw [if_pos ha] at h
        simp at h
      · rw [if_neg ha] at h
        rw [List.mem_singleton] at h
        simp [h]
    · rw [trimRight_cons_of_ne ht] at h
      rcases List.mem_cons.mp h with rfl | h2
      · exact List.mem_cons_self _ _
      · exact List.mem_cons.mpr (Or.inr (ih h2))

theorem mem_of_mem_jsTrim {c : Char} {l : List Char} (h : c ∈ jsTrim l) : c ∈ l :=
  mem_of_mem_dropWhile (mem_of_mem_trimRight h)

theorem jsParseInt_nonneg {l : List Char} (hm : ('-' : Char) ∉ l) {k : Int}
    (hk : jsParseInt l = some k) : 0 ≤ k := by
  unfold jsParseInt at hk
  split at hk
  · exact absurd (List.mem_cons_self _ _) hm
  · rcases Option.map_eq_some'.mp hk with ⟨n, hn, hfn⟩
    omega
  · rcases Option.map_eq_some'.mp hk with ⟨n, hn, hfn⟩
    omega

theorem mem_intRangeTo {s m p : Int} (h : p ∈ intRangeTo s m) : s ≤ p ∧ p ≤ m := by
  unfold intRangeTo at h
  rcases List.mem_map.mp h with ⟨k, hk, rfl⟩
  rw [List.mem_range] at hk
  omega

theorem get?_zero_of_map {α β : Type} (f : α → β) (l : List α) {b : β}
    (h : (l.map f).get? 0 = some b) : ∃ a, l.get? 0 = some a ∧ f a = b := by
  cases l with
  | nil => simp at h
  | cons x t =>
    simp only [List.map_cons, List.get?] at h
    exact ⟨x, rfl, (Option.some.injEq _ _).mp h⟩

theorem get?_one_of_map {α β : Type} (f : α → β) (l : List α) {b : β}
    (h : (l.map f).get? 1 = some b) : ∃ a, l.get? 1 = some a ∧ f a = b := by
  cases l with
  | nil => simp at h
  | cons x t =>
    cases t with
    | nil => simp at h
    | cons y u =>
      simp only [List.map_cons, List.get?] at h
      exact ⟨y, rfl, (Option.some.injEq _ _).mp h⟩

theorem mem_of_get?_zero {α : Type} {l : List α} {a : α} (h : l.get? 0 = some a) : a ∈ l := by
  cases l with
  | nil => simp at h
  | cons x t =>
    simp only [List.get?] at h
    simp [(Option.some.injEq _ _).mp h]

theorem mem_of_get?_one {α : Type} {l : List α} {a : α} (h : l.get? 1 = some a) : a ∈ l := by
  cases l with
  | nil => simp at h
  | cons x t =>
    cases t with
    | nil => simp at h
    | cons y u =>
      simp only [List.get?] at h
      simp [(Option.some.injEq _ _).mp h]

theorem tokenPages_bounds (part : List Char) (n : Nat) (p : Int)
    (hp : p ∈ tokenPages part n) : 0 ≤ p ∧ p ≤ (n : Int) := by
  unfold tokenPages at hp
  split at hp
  · -- range token
    rename_i hdash
    split at hp
    · rename_i s e hs he
      have hrange := mem_intRangeTo hp
      have hs' : ((splitOnChar '-' part).map (fun x => jsParseInt (jsTrim x))).get? 0 =
          some (some s) := by
        rcases hg : ((splitOnChar '-' part).map (fun x => jsParseInt (jsTrim x))).get? 0 with _ | v
        · rw [hg] at hs; simp at hs
        · rw [hg] at hs; simp at hs; rw [hs]
      obtain ⟨piece, hpiece, hval⟩ := get?_zero_of_map _ _ hs'
      have hmem : piece ∈ splitOnChar '-' part := mem_of_get?_zero hpiece
      have hnd : ('-' : Char) ∉ piece := not_mem_of_mem_splitOnChar '-' part piece hmem
      have hnd' : ('-' : Char) ∉ jsTrim piece := fun hc => hnd (mem_of_mem_jsTrim hc)
      have hs0 : 0 ≤ s := jsParseInt_nonneg hnd' hval
      constructor
      · exact le_trans hs0 hrange.1
      · exact le_trans hrange.2 (min_le_right _ _)
    · simp at hp
  · -- single token
    rename_i hdash
    split at hp
    · rename_i q hq
      split at hp
      · rename_i hle
        rw [List.mem_singleton] at hp
        subst hp
        have hnd : ('-' : Char) ∉ jsTrim part := fun hc => hdash (mem_of_mem_jsTrim hc)
        exact ⟨jsParseInt_nonneg hnd hq, hle⟩
      · simp at hp
    · simp at hp

theorem mem_addPage {l : List Int} {q p : Int} : q ∈ addPage l p ↔ q ∈ l ∨ q = p := by
  unfold addPage
  by_cases h : p ∈ l
  · simp only [h, if_true]
    constructor
    · exact Or.inl
    · rintro (hq | rfl)
      · exact hq
      · exact h
  · simp [h]

theorem mem_foldl_addPage (ps : List Int) (acc : List Int) (q : Int) :
    q ∈ ps.foldl addPage acc ↔ q ∈ acc ∨ q ∈ ps := by
  induction ps generalizing acc with
  | nil => simp
  | cons x t ih =>
    rw [List.foldl_cons, ih, mem_addPage]
    simp [List.mem_cons]
    tauto

theorem mem_pagesFold (parts : List (List Char)) (n : Nat) (acc : List Int) (q : Int) :
    q ∈ parts.foldl (fun acc part => (tokenPages part n).foldl addPage acc) acc ↔
      q ∈ acc ∨ ∃ part ∈ parts, q ∈ tokenPages part n := by
  induction parts generalizing acc with
  | nil => simp
  | cons x t ih =>
    rw [List.foldl_cons, ih, mem_foldl_addPage]
    constructor
    · rintro ((h | h) | ⟨part, hpart, hq⟩)
      · exact Or.inl h
      · exact Or.inr ⟨x, List.mem_cons_self x t, h⟩
      · exact Or.inr ⟨part, List.mem_cons.mpr (Or.inr hpart), hq⟩
    · rintro (h | ⟨part, hpart, hq⟩)
      · exact Or.inl (Or.inl h)
      · rcases List.mem_cons.mp hpart with rfl | hpart
        · exact Or.inl (Or.inr hq)
        · exact Or.inr ⟨part, hpart, hq⟩

theorem mem_insertLe {p q : Int} {l : List Int} : q ∈ insertLe p l ↔ q = p ∨ q ∈ l := by
  induction l with
  | nil => simp [insertLe]
  | cons a t ih =>
    simp only [insertLe]
    by_cases h : p ≤ a
    · simp [h, List.mem_cons]
    · simp only [h, if_false, List.mem_cons, ih]
      tauto

theorem mem_sortInts {q : Int} {l : List Int} : q ∈ sortInts l ↔ q ∈ l := by
  induction l with
  | nil => simp [sortInts]
  | cons x t ih =>
    show q ∈ insertLe x (t.foldr insertLe []) ↔ _
    rw [mem_insertLe]
    show q = x ∨ q ∈ sortInts t ↔ _
    rw [ih]
    simp [List.mem_cons]

theorem pairwise_le_insertLe (p : Int) (l : List Int) (h : List.Pairwise (· ≤ ·) l) :
    List.Pairwise (· ≤ ·) (insertLe p l) := by
  induction l with
  | nil => simp [insertLe]
  | cons a t ih =>
    simp only [insertLe]
    rcases List.pairwise_cons.mp h with ⟨h1, h2⟩
    by_cases hpa : p ≤ a
    · rw [if_pos hpa]
      refine List.pairwise_cons.mpr ⟨?_, h⟩
      intro b hb
      rcases List.mem_cons.mp hb with rfl | hb
      · exact hpa
      · exact le_trans hpa (h1 b hb)
    · rw [if_neg hpa]
      refine List.pairwise_cons.mpr ⟨?_, ih h2⟩
      intro b hb
      rcases mem_insertLe.mp hb with rfl | hb
      · omega
      · exact h1 b hb

theorem pairwise_le_sortInts (l : List Int) : List.Pairwise (· ≤ ·) (sortInts l) := by
  induction l with
  | nil => simp [sortInts]
  | cons x t ih => exact pairwise_le_insertLe x (sortInts t) ih

theorem nodup_insertLe (p : Int) (l : List Int) (h : l.Nodup) (hp : p ∉ l) :
    (insertLe p l).Nodup := by
  induction l with
  | nil => simp [insertLe]
  | cons a t ih =>
    simp only [insertLe]
    rcases List.nodup_cons.mp h with ⟨ha, ht⟩
    by_cases hpa : p ≤ a
    · rw [if_pos hpa]
      refine List.nodup_cons.mpr ⟨hp, h⟩
    · rw [if_neg hpa]
      refine List.nodup_cons.mpr ⟨?_, ih ht (fun hc => hp (List.mem_cons.mpr (Or.inr hc)))⟩
      intro hc
      rcases mem_insertLe.mp hc with rfl | hc
      · exact hp (List.mem_cons_self _ _)
      · exact ha hc

theorem nodup_sortInts (l : List Int) (h : l.Nodup) : (sortInts l).Nodup := by
  induction l with
  | nil => simp [sortInts]
  | cons x t ih =>
    rcases List.nodup_cons.mp h with ⟨hx, ht⟩
    exact nodup_insertLe x (sortInts t) (ih ht) (fun hc => hx (mem_sortInts.mp hc))

theorem nodup_addPage (l : List Int) (p : Int) (h : l.Nodup) : (addPage l p).Nodup := by
  unfold addPage
  by_cases hp : p ∈ l
  · rw [if_pos hp]; exact h
  · rw [if_neg hp]
    rw [List.nodup_append]
    refine ⟨h, List.nodup_singleton p, ?_⟩
    intro a ha hc
    rw [List.mem_singleton] at hc
    exact hp (hc ▸ ha)

theorem nodup_foldl_addPage (ps : List Int) (acc : List Int) (h : acc.Nodup) :
    (ps.foldl addPage acc).Nodup := by
  induction ps generalizing acc with
  | nil => exact h
  | cons x t ih => exact ih (addPage acc x) (nodup_addPage acc x h)

theorem nodup_pagesFold (parts : List (List Char)) (n : Nat) (acc : List Int) (h : acc.Nodup) :
    (parts.foldl (fun acc part => (tokenPages part n).foldl addPage acc) acc).Nodup := by
  induction parts generalizing acc with
  | nil => exact h
  | cons x t ih => exact ih _ (nodup_foldl_addPage _ _ h)

theorem pairwise_lt_of_le_nodup {l : List Int} (h1 : List.Pairwise (· ≤ ·) l) (h2 : l.Nodup) :
    List.Pairwise (· < ·) l :=
  (h1.and h2).imp (fun h => lt_of_le_of_ne h.1 h.2)

theorem pairwise_lt_parsePageRange (expr : String) (n : Nat) :
    List.Pairwise (· < ·) (parsePageRange expr n) := by
  unfold parsePageRange
  split
  · refine List.pairwise_map.mpr ((List.pairwise_lt_range n).imp ?_)
    intro a b hab
    omega
  · exact pairwise_lt_of_le_nodup (pairwise_le_sortInts _)
      (nodup_sortInts _ (nodup_pagesFold _ _ _ List.nodup_nil))

/-! ## C2 -/

/-- C2 counterexample: the numeric token `0` is below 1 yet is NOT
excluded: it passes the only bound check (`page <= totalPages`) and lands
in the resolved selection. -/
theorem c2_counterexample :
    parsePageRange "0" 10 = [0] ∧ ((0 : Int) < 1) := by
  exact ⟨by decide, by decide⟩

/-- C2 (amended): every page number in the resolved selection is at most
`pageCount` and at least 0 — tokens above `pageCount` and tokens parsing
to NaN are silently excluded without error, and no negative number can
appear — but the lower bound 1 is not enforced: 0 survives. -/
theorem c2_page_bounds (expr : String) (n : Nat) (p : Int)
    (hp : p ∈ parsePageRange expr n) : 0 ≤ p ∧ p ≤ (n : Int) := by
  unfold parsePageRange at hp
  split at hp
  · rcases List.mem_map.mp hp with ⟨i, hi, rfl⟩
    rw [List.mem_range] at hi
    omega
  · rw [mem_sortInts, mem_pagesFold] at hp
    rcases hp with h | ⟨part, _, htok⟩
    · simp at h
    · exact tokenPages_bounds part n p htok

theorem c2_page_bounds_witness : (0 : Int) ≤ 2 ∧ (2 : Int) ≤ ((10 : Nat) : Int) :=
  c2_page_bounds "2-4" 10 2 (by decide)

/-! ## C6 -/

/-- C6: `resolve("all", pageCount)` contains exactly the pages
`1..pageCount` and is strictly ascending; the three concrete resolutions
of the spec hold; and for every expression the result is strictly
ascending (so duplicates collapse and the output is sorted). -/
theorem c6_page_range_resolution :
    (∀ (n : Nat) (p : Int), p ∈ parsePageRange "all" n ↔ 1 ≤ p ∧ p ≤ (n : Int)) ∧
    parsePageRange "2-4" 10 = [2, 3, 4] ∧
    parsePageRange "1,3,5" 2 = [1] ∧
    parsePageRange "5-3" 10 = [] ∧
    (∀ (expr : String) (n : Nat), List.Pairwise (· < ·) (parsePageRange expr n)) := by
  refine ⟨?_, by decide, by decide, by decide, pairwise_lt_parsePageRange⟩
  intro n p
  unfold parsePageRange
  rw [if_pos rfl]
  constructor
  · intro hp
    rcases List.mem_map.mp hp with ⟨i, hi, rfl⟩
    rw [List.mem_range] at hi
    omega
  · intro ⟨h1, h2⟩
    refine List.mem_map.mpr ⟨(p - 1).toNat, ?_, ?_⟩
    · rw [List.mem_range]; omega
    · omega

/-! ## C7: idempotence of the text normalizer -/

theorem ws_space_collapseWsAux (b : Bool) (l : List Char) :
    ∀ c ∈ collapseWsAux b l, isJsWs c = true → c = ' ' := by
  induction l generalizing b with
  | nil => intro c hc; simp [collapseWsAux] at hc
  | cons a t ih =>
    intro c hc hws
    simp only [collapseWsAux] at hc
    by_cases ha : isJsWs a
    · rw [if_pos ha] at hc
      cases b with
      | true => exact ih true c (by simpa using hc) hws
      | false =>
        simp only [Bool.false_eq_true, if_false] at hc
        rcases List.mem_cons.mp hc with rfl | hc
        · rfl
        · exact ih true c hc hws
    · rw [if_neg ha] at hc
      rcases List.mem_cons.mp hc with rfl | hc
      · exact absurd hws ha
      · exact ih false c hc hws

theorem head_collapseWsAux_true (l : List Char) :
    ∀ c, (collapseWsAux true l).head? = some c → isJsWs c = false := by
  induction l with
  | nil => intro c hc; simp [collapseWsAux] at hc
  | cons a t ih =>
    intro c hc
    simp only [collapseWsAux] at hc
    by_cases ha : isJsWs a
    · rw [if_pos ha] at hc
      exact ih c (by simpa using hc)
    · rw [if_neg ha] at hc
      rw [List.head?_cons, Option.some.injEq] at hc
      subst hc
      exact Bool.eq_false_iff.mpr ha

theorem chain_collapseWsAux (b : Bool) (l : List Char) :
    List.Chain' (fun a c => isJsWs a = false ∨ isJsWs c = false) (collapseWsAux b l) := by
  induction l generalizing b with
  | nil => simp [collapseWsAux]
  | cons a t ih =>
    simp only [collapseWsAux]
    by_cases ha : isJsWs a
    · rw [if_pos ha]
      cases b with
      | true => simpa using ih true
      | false =>
        simp only [Bool.false_eq_true, if_false]
        rw [List.chain'_cons']
        refine ⟨?_, ih true⟩
        intro y hy
        exact Or.inr (head_collapseWsAux_true t y hy)
    · rw [if_neg ha]
      rw [List.chain'_cons']
      exact ⟨fun y _ => Or.inl (Bool.eq_false_iff.mpr ha), ih false⟩

theorem not_nl_mem (l : List Char) (h : ∀ c ∈ l, isJsWs c = true → c = ' ') :
    ('\n' : Char) ∉ l := by
  intro hc
  exact absurd (h '\n' hc (by decide)) (by decide)

theorem collapseNlAux_zero_eq (l : List Char) (h : ('\n' : Char) ∉ l) :
    collapseNlAux 0 l = l := by
  induction l with
  | nil => rfl
  | cons a t ih =>
    have ha : a ≠ '\n' := fun hc => h (hc ▸ List.mem_cons_self a t)
    simp only [collapseNlAux]
    rw [if_neg ha, ih (fun hc => h (List.mem_cons.mpr (Or.inr hc)))]
    rfl

theorem chain_dropWhile {R : Char → Char → Prop} (p : Char → Bool) {l : List Char}
    (h : List.Chain' R l) : List.Chain' R (l.dropWhile p) := by
  induction l with
  | nil => simpa using h
  | cons a t ih =>
    rw [List.dropWhile_cons]
    by_cases hp : p a
    · rw [if_pos hp]
      exact ih h.tail
    · rw [if_neg hp]
      exact h

theorem trimRight_head_of_ne {l : List Char} (h : trimRight l ≠ []) :
    (trimRight l).head? = l.head? := by
  cases l with
  | nil => simp [trimRight] at h
  | cons a t =>
    by_cases ht : trimRight t = []
    · rw [trimRight_cons_of_nil ht] at h ⊢
      by_cases ha : isJsWs a
      · rw [if_pos ha] at h; exact absurd rfl h
      · rw [if_neg ha]; rfl
    · rw [trimRight_cons_of_ne ht]; rfl

theorem chain_trimRight {R : Char → Char → Prop} {l : List Char}
    (h : List.Chain' R l) : List.Chain' R (trimRight l) := by
  induction l with
  | nil => simpa [trimRight] using h
  | cons a t ih =>
    by_cases ht : trimRight t = []
    · rw [trimRight_cons_of_nil ht]
      by_cases ha : isJsWs a
      · rw [if_pos ha]; exact List.chain'_nil
      · rw [if_neg ha]; exact List.chain'_singleton a
    · rw [trimRight_cons_of_ne ht]
      rw [List.chain'_cons']
      refine ⟨?_, ih h.tail⟩
      intro y hy
      rw [trimRight_head_of_ne ht] at hy
      exact (List.chain'_cons'.mp h).1 y hy

theorem head_dropWhile_not (p : Char → Bool) {l : List Char} :
    ∀ c, (l.dropWhile p).head? = some c → p c = false := by
  induction l with
  | nil => intro c hc; simp at hc
  | cons a t ih =>
    intro c hc
    rw [List.dropWhile_cons] at hc
    by_cases hp : p a
    · rw [if_pos hp] at hc
      exact ih c hc
    · rw [if_neg hp] at hc
      rw [List.head?_cons, Option.some.injEq] at hc
      subst hc
      exact Bool.eq_false_iff.mpr hp

theorem dropWhile_dropWhile (p : Char → Bool) (l : List Char) :
    (l.dropWhile p).dropWhile p = l.dropWhile p := by
  cases hd : l.dropWhile p with
  | nil => rfl
  | cons a t =>
    have ha : p a = false := head_dropWhile_not p a (by rw [hd]; rfl)
    rw [List.dropWhile_cons, ha]
    simp

theorem trimRight_trimRight (l : List Char) : trimRight (trimRight l) = trimRight l := by
  induction l with
  | nil => rfl
  | cons a t ih =>
    by_cases ht : trimRight t = []
    · rw [trimRight_cons_of_nil ht]
      by_cases ha : isJsWs a
      · rw [if_pos ha]; rfl
      · rw [if_neg ha]
        show trimRight [a] = [a]
        rw [trimRight_cons_of_nil (show trimRight [] = [] from rfl), if_neg ha]
    · rw [trimRight_cons_of_ne ht]
      have ht2 : trimRight (trimRight t) ≠ [] := by rw [ih]; exact ht
      rw [trimRight_cons_of_ne ht2, ih]

theorem trimRight_eq_nil_all_ws {l : List Char} (h : trimRight l = []) :
    ∀ c ∈ l, isJsWs c = true := by
  induction l with
  | nil => simp
  | cons a t ih =>
    intro c hc
    by_cases ht : trimRight t = []
    · rw [trimRight_cons_of_nil ht] at h
      by_cases ha : isJsWs a
      · rcases List.mem_cons.mp hc with rfl | hc
        · exact ha
        · exact ih ht c hc
      · rw [if_neg ha] at h
        simp at h
    · rw [trimRight_cons_of_ne ht] at h
      simp at h

theorem dropWhile_trimRight_comm (l : List Char) :
    (trimRight l).dropWhile isJsWs = trimRight (l.dropWhile isJsWs) := by
  induction l with
  | nil => rfl
  | cons a t ih =>
    by_cases ha : isJsWs a
    · by_cases ht : trimRight t = []
      · rw [trimRight_cons_of_nil ht, if_pos ha]
        rw [List.dropWhile_cons, if_pos ha]
        have hall : t.dropWhile isJsWs = [] :=
          List.dropWhile_eq_nil_iff.mpr (fun c hc => trimRight_eq_nil_all_ws ht c hc)
        rw [hall]
        rfl
      · rw [trimRight_cons_of_ne ht]
        rw [List.dropWhile_cons, if_pos ha, List.dropWhile_cons, if_pos ha]
        exact ih
    · by_cases ht : trimRight t = []
      · rw [trimRight_cons_of_nil ht, if_neg ha]
        rw [List.dropWhile_cons, if_neg ha]
        rw [List.dropWhile_cons, if_neg ha]
        rw [trimRight_cons_of_nil ht, if_neg ha]
      · rw [trimRight_cons_of_ne ht]
        rw [List.dropWhile_cons, if_neg ha]
        rw [List.dropWhile_cons, if_neg ha]
        rw [trimRight_cons_of_ne ht]

theorem collapseWsAux_true_eq_false {l : List Char}
    (h : ∀ c, l.head? = some c → isJsWs c = false) :
    collapseWsAux true l = collapseWsAux false l := by
  cases l with
  | nil => rfl
  | cons a t =>
    have ha : isJsWs a = false := h a rfl
    simp [collapseWsAux, ha]

theorem collapseWsAux_false_eq_self {l : List Char}
    (hA : ∀ c ∈ l, isJsWs c = true → c = ' ')
    (hC : List.Chain' (fun a c => isJsWs a = false ∨ isJsWs c = false) l) :
    collapseWsAux false l = l := by
  induction l with
  | nil => rfl
  | cons a t ih =>
    simp only [collapseWsAux]
    have ihr := ih (fun c hc hw => hA c (List.mem_cons.mpr (Or.inr hc)) hw) hC.tail
    by_cases ha : isJsWs a
    · rw [if_pos ha]
      simp only [Bool.false_eq_true, if_false]
      have ha' : a = ' ' := hA a (List.mem_cons_self a t) ha
      have hhead : ∀ c, t.head? = some c → isJsWs c = false := by
        intro c hc
        rcases (List.chain'_cons'.mp hC).1 c hc with h | h
        · rw [ha] at h; simp at h
        · exact h
      rw [collapseWsAux_true_eq_false hhead, ihr, ha']
    · rw [if_neg ha, ihr]

theorem cleanTextL_idem (l : List Char) : cleanTextL (cleanTextL l) = cleanTextL l := by
  have hA : ∀ c ∈ collapseWs l, isJsWs c = true → c = ' ' := ws_space_collapseWsAux false l
  have hC : List.Chain' (fun a c => isJsWs a = false ∨ isJsWs c = false) (collapseWs l) :=
    chain_collapseWsAux false l
  have hnl : collapseNl (collapseWs l) = collapseWs l :=
    collapseNlAux_zero_eq _ (not_nl_mem _ hA)
  have h1 : cleanTextL l = jsTrim (collapseWs l) := by
    unfold cleanTextL
    rw [hnl]
  have hAt : ∀ c ∈ jsTrim (collapseWs l), isJsWs c = true → c = ' ' :=
    fun c hc hw => hA c (mem_of_mem_jsTrim hc) hw
  have hCt : List.Chain' (fun a c => isJsWs a = false ∨ isJsWs c = false)
      (jsTrim (collapseWs l)) :=
    chain_trimRight (chain_dropWhile isJsWs hC)
  have h2 : collapseWs (jsTrim (collapseWs l)) = jsTrim (collapseWs l) :=
    collapseWsAux_false_eq_self hAt hCt
  have h3 : collapseNl (jsTrim (collapseWs l)) = jsTrim (collapseWs l) :=
    collapseNlAux_zero_eq _ (not_nl_mem _ hAt)
  have h4 : jsTrim (jsTrim (collapseWs l)) = jsTrim (collapseWs l) := by
    show trimRight ((trimRight ((collapseWs l).dropWhile isJsWs)).dropWhile isJsWs) = _
    rw [dropWhile_trimRight_comm, dropWhile_dropWhile, trimRight_trimRight]
    rfl
  rw [h1]
  show jsTrim (collapseNl (collapseWs (jsTrim (collapseWs l)))) = _
  rw [h2, h3, h4]

/-- C7: the text normalizer is idempotent: cleaning already-cleaned text
changes nothing. -/
theorem c7_clean_idempotent (s : String) : cleanText (cleanText s) = cleanText s := by
  show (⟨cleanTextL (cleanText s).data⟩ : String) = cleanText s
  have hd : (cleanText s).data = cleanTextL s.data := rfl
  rw [hd, cleanTextL_idem]
  rfl
